import Mathlib

/-!
Verification development for the opening-repertoire builder (`openings.py`).

The Python program grows a tree of chess positions: it repeatedly pops a
frontier position, picks a best reply with `find_best_move`, branches over the
opponent's statistically plausible replies (`get_opposing_moves`), and prunes
the frontier whenever the ply of the next node changes.  External
collaborators (the chess rules engine, the engine evaluator and the lichess
statistics service) are modelled as oracle parameters; every function below is
a direct shallow embedding of the corresponding Python function.

Modelling conventions:
* floating point scores and shares are modelled as rationals (`ℚ`); the Wilson
  confidence bound, which uses `math.sqrt`, is modelled over the reals;
* Python lists are Lean lists; `collections.deque` is a list whose head is the
  left end, so `appendleft` is `List.cons` and `pop` removes `getLast`;
* Python dicts (`best_moves`, `totals`) are association lists inserted in
  program order and read with a first-match lookup;
* `sorted(..., key=...)` is a stable sort, modelled with `List.insertionSort`
  (stable, hence pointwise equal to Python's stable sort for a total key
  order);
* fallible operations (`sorted(moves, ...)[0]`, a retry loop that falls off
  the end of the function) return `Option`.
-/

/-- One element of the `moves` array of a lichess explorer response:
the move plus its white/black/draw game counts. -/
structure MoveEntry (Move : Type) where
  uci : Move
  white : ℕ
  black : ℕ
  draws : ℕ
  deriving Repr, DecidableEq

/-- A lichess explorer response: aggregate white/black/draw counts for the
position plus the per-move table. -/
structure StatsResp (Move : Type) where
  white : ℕ
  black : ℕ
  draws : ℕ
  moves : List (MoveEntry Move)
  deriving Repr, DecidableEq

/-- The board operations of the external rules engine (`python-chess`) that
the program uses.  `fen` is the full position encoding (side to move,
castling, counters included); `board_fen` is the piece-placement-only
encoding; `push b m` is the position after playing `m` on a copy of `b`;
`turn` is the side to move (`true` = white, as in `chess.WHITE`). -/
structure Rules (Board Move : Type) where
  push : Board → Move → Board
  ply : Board → ℕ
  fen : Board → String
  board_fen : Board → String
  turn : Board → Bool
  is_checkmate : Board → Bool
  legal_moves : Board → List Move

/-- First-match association-list lookup, the model of Python `dict`
reads (`totals[fen]`, `best_moves.get(fen)`). -/
def alookup {β : Type} (k : String) : List (String × β) → Option β
  | [] => none
  | (k', v) :: rest => if k' = k then some v else alookup k rest

/-- Stable sort in descending order of `key`, the model of
`sorted(l, key=lambda x: -key(x))`. -/
def sortDescBy {α β : Type} [LinearOrder β] (key : α → β) (l : List α) : List α :=
  @List.insertionSort α (fun a b => key b ≤ key a)
    (fun a b => inferInstanceAs (Decidable (key b ≤ key a))) l

/-- Maximum of a list of scores, `0` for the empty list: the value of
`top_score` in `find_best_move` (`0.0` default, else `sorted(...)[0][1]`). -/
def max_score : List ℚ → ℚ
  | [] => 0
  | s :: ss => ss.foldl max s

/-- The per-move statistics table built by `get_moves_table(board, min_moves)`:
for each move of the response, its population share `count / total_moves` and
its raw count; empty when the position's total game count is below
`min_moves`.  (`resp` is the memoised statistics-service lookup
`get_moves_table_fen`, modelled as a pure oracle keyed by full FEN.) -/
def get_moves_table {Move : Type} (resp : String → StatsResp Move)
    (fen : String) (min_moves : ℕ) : List (Move × ℚ × ℕ) :=
  let r := resp fen
  let total_moves := r.white + r.black + r.draws
  if total_moves < min_moves then []
  else r.moves.map fun m =>
    let count : ℕ := m.white + m.black + m.draws
    (m.uci, ((count : ℚ) / (total_moves : ℚ), count))

/-- The opponent replies worth branching into
(`get_opposing_moves(board, min_moves=2, min_pct=0.5)`): moves whose share
exceeds `min_pct` or whose count exceeds `100_000`, capped at 10; if fewer
than `min_moves` pass, the top `min_moves` table moves by raw share. -/
def get_opposing_moves {Board Move : Type} (R : Rules Board Move)
    (resp : String → StatsResp Move) (b : Board)
    (min_moves : ℕ) (min_pct : ℚ) : List Move :=
  let table := get_moves_table resp (R.fen b) 200
  let pass_pct := (table.filter fun e => min_pct < e.2.1 ∨ 100000 < e.2.2).map (·.1)
  if min_moves ≤ pass_pct.length then pass_pct.take 10
  else ((sortDescBy (fun e => e.2.1) table).map (·.1)).take min_moves

/-- Score of the first element of a (sorted) scored-move list, `0` when the
list is empty: `top_score = 0.0` / `sorted(moves, key=lambda x: -x[1])[0][1]`
in `find_best_move`. -/
def head_score {α : Type} : List (α × ℚ) → ℚ
  | [] => 0
  | p :: _ => p.2

/-- The candidate shortlist of `find_best_move`: moves passing the 5%-share /
100000-count filter — the top 5 by share when at least 3 pass, otherwise the
top 3 table moves by share. -/
def find_best_move_candidates {Move : Type} (resp : String → StatsResp Move)
    (fen : String) : List Move :=
  let table := get_moves_table resp fen 0
  let pass_pct := table.filter fun e => (5 : ℚ)/100 < e.2.1 ∨ 100000 < e.2.2
  if 3 ≤ pass_pct.length then ((sortDescBy (fun e => e.2.1) pass_pct).map (·.1)).take 5
  else ((sortDescBy (fun e => e.2.1) table).map (·.1)).take 3

/-- The heuristic scores of the evaluated candidates of `find_best_move`
(the second components of its `moves` list before any fallback). -/
def find_best_move_scores {Board Move : Type} (R : Rules Board Move)
    (resp : String → StatsResp Move) (heuristic : Board → Bool → ℚ)
    (b : Board) : List ℚ :=
  (find_best_move_candidates resp (R.fen b)).map fun m =>
    heuristic (R.push b m) (R.turn b)

/-- Shallow embedding of `find_best_move(board, heuristic)`.  `heuristic` is
the swappable evaluator (e.g. `lichess_winrate`); `sf` is the engine-backed
fallback score `winning(bc, board.turn).wdl(model="lichess",
ply=bc.ply()).winning_chance()`, a pure oracle of the resulting position and
the point of view.  Returns the chosen move (`none` models the `IndexError`
raised by `sorted([])[0]` when the final pool is empty) and whether the
engine fallback ran. -/
def find_best_move {Board Move : Type} (R : Rules Board Move)
    (resp : String → StatsResp Move) (heuristic : Board → Bool → ℚ)
    (sf : Board → Bool → ℚ) (b : Board) : Option Move × Bool :=
  let before := heuristic b (R.turn b)
  let candidates := find_best_move_candidates resp (R.fen b)
  let moves := candidates.map fun m => (m, heuristic (R.push b m) (R.turn b))
  let top_score : ℚ := head_score (sortDescBy (fun p => p.2) moves)
  let not_enough_candidates : Bool := moves.length < 2
  let unusual_drop : Bool := top_score < (95 : ℚ)/100 * before
  let unusually_low : Bool :=
    decide ((1 : ℚ)/100 < top_score - before) && decide (top_score < (45 : ℚ)/100)
  let fallback : Bool := not_enough_candidates || unusual_drop || unusually_low
  let moves2 :=
    if fallback then
      moves ++ (R.legal_moves b).map fun m => (m, sf (R.push b m) (R.turn b))
    else moves
  (((sortDescBy (fun p => p.2) moves2).head?).map Prod.fst, fallback)

/-- The fallback trigger exactly as the specification words it: fewer than 2
candidates evaluated, or `top_score` more than 5% (relative) below `before`,
or `top_score` exceeding `before` by less than 1 percentage point while
remaining below 0.45.  (Spec-following definition, kept separate from the
source-derived `find_best_move`, for comparison with the code's trigger.) -/
def spec_fallback_trigger (numEvaluated : ℕ) (top_score before : ℚ) : Prop :=
  numEvaluated < 2
    ∨ top_score < (1 - 5/100) * before
    ∨ (before < top_score ∧ top_score - before < 1/100 ∧ top_score < 45/100)

/-- Wilson score lower confidence bound `wsi_lower(wins, total)` at
`z = 1.96`, with `math.sqrt` modelled by `Real.sqrt` (hence noncomputable —
the only idealisation of the Python floats in this file). -/
noncomputable def wsi_lower (wins total : ℕ) : ℝ :=
  let z : ℝ := 1.96
  let phat : ℝ := (wins : ℝ) / (total : ℝ)
  let a := phat + z * z / (2 * total)
  let b := z * Real.sqrt ((phat * (1 - phat) + z * z / (4 * total)) / total)
  let c := 1 + z * z / total
  (a - b) / c

/-- The same formula over real arguments `t = total`, `p = phat`, used to
factor the analytic lemmas about `wsi_lower`. -/
noncomputable def wilsonReal (t p : ℝ) : ℝ :=
  (p + 1.96 * 1.96 / (2 * t)
      - 1.96 * Real.sqrt ((p * (1 - p) + 1.96 * 1.96 / (4 * t)) / t))
    / (1 + 1.96 * 1.96 / t)

/-- Shallow embedding of `winrate(board, pov, get_moves_table)`: 1.0 / 0.0 at
a checkmate depending on whether the point-of-view side delivered it, 0.0
when the statistics report zero games, otherwise the Wilson lower bound of
wins-for-`pov` over total. -/
noncomputable def winrate {Board Move : Type} (R : Rules Board Move)
    (resp : String → StatsResp Move) (b : Board) (pov : Bool) : ℝ :=
  if R.is_checkmate b then (if R.turn b ≠ pov then 1.0 else 0.0)
  else
    let r := resp (R.fen b)
    let total := r.white + r.black + r.draws
    let wins := if pov then r.white else r.black
    if total = 0 then 0.0 else wsi_lower wins total

/-- Outcome of one statistics-service request attempt inside
`get_moves_table_fen`: a parsed JSON body, an HTTP 429 rate-limit response,
or a raised exception (covering connection errors and JSON decode errors). -/
inductive ReqResult (Move : Type) where
  | json : StatsResp Move → ReqResult Move
  | rate : ReqResult Move
  | err : ReqResult Move

/-- The retry loop of `get_moves_table_fen`: `fuel` is the remaining retry
budget (`3 - retry_count`), `k` the index of the next attempt.  Returns the
parsed response, if any (`none` models the implicit `return None` when the
`while retry_count < 3` loop exhausts), together with the list of cool-down
sleeps performed (60 s after a rate limit, 300 s after an exception). -/
def gmtf_loop {Move : Type} (attempt : ℕ → ReqResult Move) :
    ℕ → ℕ → Option (StatsResp Move) × List ℕ
  | 0, _ => (none, [])
  | fuel + 1, k =>
    match attempt k with
    | .json r => (some r, [])
    | .rate => let p := gmtf_loop attempt fuel (k + 1); (p.1, 60 :: p.2)
    | .err => let p := gmtf_loop attempt fuel (k + 1); (p.1, 300 :: p.2)

/-- Shallow embedding of `get_moves_table_fen(fen, ...)`'s control flow: up
to 3 request attempts with a cool-down sleep after each failure.  The
`attempt` oracle gives the outcome of the `k`-th request. -/
def get_moves_table_fen {Move : Type} (attempt : ℕ → ReqResult Move) :
    Option (StatsResp Move) × List ℕ :=
  gmtf_loop attempt 3 0

/-- The scanning pass of `prune(q, amt)` over the queued nodes, left to
right, carrying the `totals` dict and the `deduped` / `terminal` lists.  A
node whose full FEN was already seen goes to `terminal`; otherwise its total
sample weight (the summed per-move counts of its statistics table) is
recorded, and the node goes to `terminal` when that weight is below 200 and
to `deduped` otherwise. -/
def pruneAux {Board Move : Type} (R : Rules Board Move)
    (resp : String → StatsResp Move) :
    List Board → List (String × ℕ) → List Board → List Board →
    List (String × ℕ) × List Board × List Board
  | [], totals, deduped, terminal => (totals, deduped, terminal)
  | b :: bs, totals, deduped, terminal =>
    match alookup (R.fen b) totals with
    | some _ => pruneAux R resp bs totals deduped (terminal ++ [b])
    | none =>
      let tbl := get_moves_table resp (R.fen b) 200
      let total := (tbl.map fun e => e.2.2).sum
      let totals' := totals ++ [(R.fen b, total)]
      if total < 200 then pruneAux R resp bs totals' deduped (terminal ++ [b])
      else pruneAux R resp bs totals' (deduped ++ [b]) terminal

/-- Shallow embedding of `prune(q, amt)`: deduplicate/filter via `pruneAux`,
sort the survivors descending by recorded sample weight (stable, like
Python's `sorted` with key `-totals[b.fen()]`), keep the top `amt` as the new
frontier and discard the rest together with the terminal nodes. -/
def prune {Board Move : Type} (R : Rules Board Move)
    (resp : String → StatsResp Move) (q : List Board) (amt : ℕ) :
    List Board × List Board :=
  let res := pruneAux R resp q [] [] []
  let sorted_q := sortDescBy (fun b => (alookup (R.fen b) res.1).getD 0) res.2.1
  (sorted_q.take amt, sorted_q.drop amt ++ res.2.2)

/-- State of `build`'s expansion loop: the `best_moves` cache (keyed by
`board_fen`), the frontier deque `q` (head = left end), the terminal list,
the last-seen ply, and — instrumentation — the `board_fen` keys on which
`find_best_move` has been invoked by the loop. -/
structure BState (Board Move : Type) where
  best_moves : List (String × Move)
  q : List Board
  terminal : List Board
  lastPly : ℕ
  invoked : List String

/-- Frontier events of a `build` run: a node pushed (`q.appendleft`), a node
popped (`q.pop()`), or the frontier replaced by a prune (recording the new
queue contents). -/
inductive Ev (Board : Type) where
  | push : Board → Ev Board
  | pop : Board → Ev Board
  | pruned : List Board → Ev Board
  deriving DecidableEq

/-- The `for m in opp_moves` body of `build`: for each opponent reply, copy
the popped board, play the reply, look the resulting `board_fen` up in the
`best_moves` cache — invoking `find_best_move` (the `fbm` oracle) only on a
miss — play the chosen best move and `appendleft` the child.  Returns the
updated cache, queue and invocation log plus the push events in order. -/
def expandChildren {Board Move : Type} (R : Rules Board Move)
    (fbm : Board → Move) (board : Board) :
    List Move → List (String × Move) → List Board → List String →
    List (String × Move) × List Board × List String × List (Ev Board)
  | [], bm, q, inv => (bm, q, inv, [])
  | m :: ms, bm, q, inv =>
    let bc := R.push board m
    let fen := R.board_fen bc
    match alookup fen bm with
    | some best =>
      let bc2 := R.push bc best
      let r := expandChildren R fbm board ms bm (bc2 :: q) inv
      (r.1, r.2.1, r.2.2.1, Ev.push bc2 :: r.2.2.2)
    | none =>
      let best := fbm bc
      let bc2 := R.push bc best
      let r := expandChildren R fbm board ms ((fen, best) :: bm) (bc2 :: q) (inv ++ [fen])
      (r.1, r.2.1, r.2.2.1, Ev.push bc2 :: r.2.2.2)

/-- The `while q:` loop of `build`, with explicit fuel.  Each iteration:
peek `q[-1]`; if its ply differs from the last-seen ply, prune to
`ply * prune_factor`; stop if the queue emptied; pop the right end; either
expand (ply below `max_ply + color` and some opposing moves exist) or move
the node to `terminal`.  Returns the final state and the event trace. -/
def buildLoop {Board Move : Type} (R : Rules Board Move)
    (resp : String → StatsResp Move) (fbm : Board → Move) (color : Bool)
    (max_ply prune_factor : ℕ) :
    ℕ → BState Board Move → BState Board Move × List (Ev Board)
  | 0, s => (s, [])
  | fuel + 1, s =>
    match s.q.getLast? with
    | none => (s, [])
    | some last =>
      let next_ply := R.ply last
      let pr : BState Board Move × List (Ev Board) :=
        if next_ply = s.lastPly then (s, [])
        else
          let p := prune R resp s.q (next_ply * prune_factor)
          ({ s with lastPly := next_ply, q := p.1, terminal := s.terminal ++ p.2 },
            [Ev.pruned p.1])
      let s1 := pr.1
      match s1.q.getLast? with
      | none => (s1, pr.2)
      | some board =>
        let q1 := s1.q.dropLast
        let opp := get_opposing_moves R resp board 2 (1/2)
        if decide (R.ply board < max_ply + (if color then 1 else 0)) && !opp.isEmpty then
          let e := expandChildren R fbm board opp s1.best_moves q1 s1.invoked
          let res2 := buildLoop R resp fbm color max_ply prune_factor fuel
            { best_moves := e.1, q := e.2.1, terminal := s1.terminal,
              lastPly := s1.lastPly, invoked := e.2.2.1 }
          (res2.1, pr.2 ++ Ev.pop board :: e.2.2.2 ++ res2.2)
        else
          let res2 := buildLoop R resp fbm color max_ply prune_factor fuel
            { s1 with q := q1, terminal := s1.terminal ++ [board] }
          (res2.1, pr.2 ++ [Ev.pop board] ++ res2.2)

/-- Shallow embedding of `build(heuristic, color, ...)`: seed the frontier —
for white, play `find_best_move` on the start position first (uncached) and
queue the resulting position; for black, queue the start position — then run
the expansion loop.  `fbm` is the configured best-move function, `start` the
rules engine's initial position, `fuel` a bound on loop iterations. -/
def build {Board Move : Type} (R : Rules Board Move)
    (resp : String → StatsResp Move) (fbm : Board → Move) (color : Bool)
    (max_ply prune_factor fuel : ℕ) (start : Board) :
    BState Board Move × List (Ev Board) :=
  if color then
    let b1 := R.push start (fbm start)
    let res := buildLoop R resp fbm color max_ply prune_factor fuel
      { best_moves := [], q := [b1], terminal := [], lastPly := 0, invoked := [] }
    (res.1, Ev.push b1 :: res.2)
  else
    let res := buildLoop R resp fbm color max_ply prune_factor fuel
      { best_moves := [], q := [start], terminal := [], lastPly := 0, invoked := [] }
    (res.1, Ev.push start :: res.2)

/-- Replay of an event trace under the first-in-first-out reading: the
tracked queue has its head at the left end, a push conses, a pop must remove
the *least* recently pushed node still present (`getLast`), and a prune
resets the tracked queue.  Returns the tracked queue at the end, or `none`
the first time a pop removes anything other than the oldest present node. -/
def fifoReplay {Board : Type} [DecidableEq Board] :
    List Board → List (Ev Board) → Option (List Board)
  | r, [] => some r
  | r, Ev.push b :: evs => fifoReplay (b :: r) evs
  | r, Ev.pop b :: evs =>
    match r.getLast? with
    | some x => if x = b then fifoReplay r.dropLast evs else none
    | none => none
  | _, Ev.pruned l :: evs => fifoReplay l evs

/-- Replay of an event trace under the last-in-first-out (stack) reading
claimed by the specification: a pop must remove the *most* recently pushed
node still present (the head of the tracked queue).  Returns `none` the
first time a pop removes anything other than the newest present node. -/
def lifoReplay {Board : Type} [DecidableEq Board] :
    List Board → List (Ev Board) → Option (List Board)
  | r, [] => some r
  | r, Ev.push b :: evs => lifoReplay (b :: r) evs
  | r, Ev.pop b :: evs =>
    match r with
    | x :: rest => if x = b then lifoReplay rest evs else none
    | [] => none
  | _, Ev.pruned l :: evs => lifoReplay l evs

/-! ### Concrete instantiations used by per-claim witnesses and counterexamples

Boards and moves are coded as natural numbers; `push` is an injective
arithmetic pairing so that distinct lines reach distinct coded boards, and
`fen`/`board_fen` are derived strings.  Each claim has its own instantiation
(none is shared between claims). -/

/-- Concrete rules engine for the C1 build run: `push b m = 100*b + m`, ply
read off the code's magnitude (start `0` has ply 0, its children ply 1,
grandchildren ply 2, and so on). -/
def c1_rules : Rules ℕ ℕ where
  push b m := 100 * b + m
  ply b := if b = 0 then 0 else if b ≤ 2 then 1 else if b ≤ 999 then 2
    else if b ≤ 99999 then 3 else 4
  fen b := if b = 0 then "s0" else if b = 1 then "s1" else if b = 2 then "s2"
    else if b = 107 then "s107" else if b = 207 then "s207"
    else if b = 10709 then "s10709" else if b = 20709 then "s20709" else "sx"
  board_fen b := if b = 0 then "s0" else if b = 1 then "s1" else if b = 2 then "s2"
    else if b = 107 then "s107" else if b = 207 then "s207"
    else if b = 10709 then "s10709" else if b = 20709 then "s20709" else "sx" 
  turn _ := true
  is_checkmate _ := false
  legal_moves _ := []

/-- Statistics oracle for the C1 run: the start position has two opposing
moves both with counts above 100000 (passing the absolute-count filter), and
the two grandchild positions have totals 300 and 250, both above the 200
reliability cutoff, so both survive the prune. -/
def c1_resp : String → StatsResp ℕ := fun f =>
  if f = "s0" then ⟨100001, 100001, 0, [⟨1, 100001, 0, 0⟩, ⟨2, 0, 100001, 0⟩]⟩
  else if f = "s207" then ⟨300, 0, 0, [⟨9, 300, 0, 0⟩]⟩
  else if f = "s107" then ⟨250, 0, 0, [⟨9, 250, 0, 0⟩]⟩
  else ⟨0, 0, 0, []⟩

/-- Concrete rules engine for the C2 `find_best_move` run. -/
def c2_rules : Rules ℕ ℕ where
  push b m := 10 * b + m
  ply _ := 0
  fen b := if b = 0 then "r0" else "rx"
  board_fen b := if b = 0 then "r0" else "rx" 
  turn _ := true
  is_checkmate _ := false
  legal_moves _ := []

/-- Statistics oracle for C2: two moves with shares 60% and 40% of 200
games, so exactly two candidates are evaluated. -/
def c2_resp : String → StatsResp ℕ := fun f =>
  if f = "r0" then ⟨120, 80, 0, [⟨1, 120, 0, 0⟩, ⟨2, 0, 80, 0⟩]⟩ else ⟨0, 0, 0, []⟩

/-- Heuristic oracle for C2: `before = 0.2` at the root, the best candidate
scores `0.205` — above `before` by half a percentage point and below 0.45. -/
def c2_heuristic : ℕ → Bool → ℚ := fun b _ =>
  if b = 1 then 41/200 else if b = 2 then 1/10 else 1/5

/-- Concrete rules engine for C4: all boards share one piece placement
(`board_fen`) but have distinct full FENs. -/
def c4_rules : Rules ℕ ℕ where
  push b m := b + m
  ply _ := 0
  fen b := if b = 1 then "f1" else if b = 2 then "f2" else "fx"
  board_fen _ := "8/8/8/8/8/8/8/8"
  turn _ := true
  is_checkmate _ := false
  legal_moves _ := []

/-- Statistics oracle for C4: every position has total sample weight 300,
above the 200 cutoff. -/
def c4_resp : String → StatsResp ℕ := fun _ => ⟨300, 0, 0, [⟨9, 300, 0, 0⟩]⟩

/-- Concrete rules engine for C5: a position with no legal moves (a mate or
stalemate). -/
def c5_rules : Rules ℕ ℕ where
  push b m := b + m
  ply _ := 0
  fen _ := "c5"
  board_fen _ := "c5" 
  turn _ := true
  is_checkmate _ := true
  legal_moves _ := []

/-- Statistics oracle for C5: no observed games anywhere, so the statistical
shortlist is empty. -/
def c5_resp : String → StatsResp ℕ := fun _ => ⟨0, 0, 0, []⟩

/-- Concrete rules engine for the C6 witness: boards `0` and `1` are
checkmates, boards `2` and `3` are not; white to move everywhere. -/
def c6_rules : Rules ℕ ℕ where
  push b m := b + m
  ply _ := 0
  fen b := if b = 2 then "p2" else if b = 3 then "p3" else "p"
  board_fen b := if b = 2 then "p2" else if b = 3 then "p3" else "p" 
  turn _ := true
  is_checkmate b := b ≤ 1
  legal_moves _ := []

/-- Statistics oracle for the C6 witness: board `3` has 7 white wins, 2
black wins and 1 draw (total 10); every other position has zero games. -/
def c6_resp : String → StatsResp ℕ := fun f =>
  if f = "p3" then ⟨7, 2, 1, []⟩ else ⟨0, 0, 0, []⟩

/-- Concrete rules engine for C8. -/
def c8_rules : Rules ℕ ℕ where
  push b m := b + m
  ply _ := 0
  fen _ := "c8"
  board_fen _ := "c8" 
  turn _ := true
  is_checkmate _ := false
  legal_moves _ := []

/-- Statistics oracle for C8: zero observed games, so the move table is
empty (below the 200-game reliability threshold). -/
def c8_resp : String → StatsResp ℕ := fun _ => ⟨0, 0, 0, []⟩

/-! ### General helper lemmas -/

theorem sortDescBy_perm {α β : Type} [LinearOrder β] (key : α → β) (l : List α) :
    List.Perm (sortDescBy key l) l :=
  List.perm_insertionSort _ l

theorem sortDescBy_sorted {α β : Type} [LinearOrder β] (key : α → β) (l : List α) :
    (sortDescBy key l).Sorted (fun a b => key b ≤ key a) := by
  haveI : IsTotal α (fun a b => key b ≤ key a) := ⟨fun a b => le_total (key b) (key a)⟩
  haveI : IsTrans α (fun a b => key b ≤ key a) := ⟨fun _ _ _ h1 h2 => le_trans h2 h1⟩
  exact List.sorted_insertionSort _ l

theorem foldl_max_mem : ∀ (ss : List ℚ) (s : ℚ), ss.foldl max s ∈ s :: ss := by
  intro ss
  induction ss with
  | nil => intro s; simp
  | cons t ts ih =>
    intro s
    have h := ih (max s t)
    simp only [List.foldl_cons]
    rcases List.mem_cons.mp h with h1 | h1
    · rw [h1]
      rcases max_choice s t with hm | hm <;> rw [hm] <;> simp
    · exact List.mem_cons_of_mem _ (List.mem_cons_of_mem _ h1)

theorem le_foldl_max : ∀ (ss : List ℚ) (s x : ℚ), x ∈ s :: ss → x ≤ ss.foldl max s := by
  intro ss
  induction ss with
  | nil => intro s x hx; simp at hx; simp [hx]
  | cons t ts ih =>
    intro s x hx
    simp only [List.foldl_cons]
    rcases List.mem_cons.mp hx with rfl | hx'
    · exact le_trans (le_max_left x t) (ih _ _ (List.mem_cons_self _ _))
    · rcases List.mem_cons.mp hx' with rfl | hx''
      · exact le_trans (le_max_right s x) (ih _ _ (List.mem_cons_self _ _))
      · exact ih _ _ (List.mem_cons_of_mem _ hx'')

theorem max_score_mem (l : List ℚ) (hl : l ≠ []) : max_score l ∈ l := by
  match l with
  | s :: ss => exact foldl_max_mem ss s

theorem le_max_score (l : List ℚ) (x : ℚ) (hx : x ∈ l) : x ≤ max_score l := by
  match l with
  | s :: ss => exact le_foldl_max ss s x hx

/-- The score at the head of the descending stable sort is the maximum score:
`sorted(moves, key=lambda x: -x[1])[0][1]` computes `max` of the scores. -/
theorem head_score_sortDescBy {α : Type} (l : List (α × ℚ)) :
    head_score (sortDescBy (fun p => p.2) l) = max_score (l.map Prod.snd) := by
  rcases hs : sortDescBy (fun p => p.2) l with _ | ⟨p, rest⟩
  · have hl : l = [] := by
      have hp := sortDescBy_perm (fun p : α × ℚ => p.2) l
      rw [hs] at hp
      exact hp.symm.eq_nil
    subst hl
    rw [hs]
    rfl
  · rw [hs]
    have hperm := sortDescBy_perm (fun p : α × ℚ => p.2) l
    rw [hs] at hperm
    have hmemp : p ∈ l := hperm.mem_iff.mp (List.mem_cons_self _ _)
    have hsorted := sortDescBy_sorted (fun p : α × ℚ => p.2) l
    rw [hs, List.sorted_cons] at hsorted
    have hub : ∀ x ∈ l, x.2 ≤ p.2 := by
      intro x hx
      rcases List.mem_cons.mp (hperm.mem_iff.mpr hx) with rfl | hx'
      · exact le_refl _
      · exact hsorted.1 x hx'
    have hne : l.map Prod.snd ≠ [] := by
      intro h
      rw [List.map_eq_nil] at h
      simp [h] at hmemp
    have h1 : head_score (p :: rest) ≤ max_score (l.map Prod.snd) :=
      le_max_score _ _ (List.mem_map_of_mem Prod.snd hmemp)
    have h2 : max_score (l.map Prod.snd) ≤ head_score (p :: rest) := by
      obtain ⟨x, hxl, hxv⟩ := List.mem_map.mp (max_score_mem _ hne)
      rw [← hxv]
      exact hub x hxl
    exact le_antisymm h1 h2

/-- Python dict lookup distributes over association-list append:
the earlier bindings win. -/
theorem alookup_append {β : Type} (k : String) (l1 l2 : List (String × β)) :
    alookup k (l1 ++ l2) =
      match alookup k l1 with
      | some v => some v
      | none => alookup k l2 := by
  induction l1 with
  | nil => simp [alookup]
  | cons p rest ih =>
    rcases p with ⟨k', v'⟩
    by_cases h : k' = k <;> simp [alookup, h, ih]

theorem find?_append_some {α : Type} (p : α → Bool) (l1 l2 : List α) (x : α)
    (h : l1.find? p = some x) : (l1 ++ l2).find? p = some x := by
  rw [List.find?_append, h]; rfl

theorem find?_append_none {α : Type} (p : α → Bool) (l1 l2 : List α)
    (h : l1.find? p = none) : (l1 ++ l2).find? p = l2.find? p := by
  rw [List.find?_append, h]; rfl

/-! ### Wilson lower bound: analytic lemmas (claim C7) -/

theorem mul_sqrt_eq (z x : ℝ) (hz : 0 ≤ z) : z * Real.sqrt x = Real.sqrt (z ^ 2 * x) := by
  rw [Real.sqrt_mul (sq_nonneg z) x, Real.sqrt_sq hz]

/-- Rewriting `wilsonReal` with the sqrt argument in terms of `k = z²/t`. -/
theorem wilsonReal_eq_kform (t p : ℝ) (ht : 0 < t) :
    wilsonReal t p =
      (p + (1.96 * 1.96 / t) / 2
          - Real.sqrt ((1.96 * 1.96 / t) * (p * (1 - p)) + (1.96 * 1.96 / t) ^ 2 / 4))
        / (1 + 1.96 * 1.96 / t) := by
  unfold wilsonReal
  rw [mul_sqrt_eq _ _ (by norm_num)]
  have h2 : (1.96 : ℝ) ^ 2 * ((p * (1 - p) + 1.96 * 1.96 / (4 * t)) / t)
      = (1.96 * 1.96 / t) * (p * (1 - p)) + (1.96 * 1.96 / t) ^ 2 / 4 := by
    field_simp
    ring
  rw [h2]
  have h3 : (1.96 : ℝ) * 1.96 / (2 * t) = (1.96 * 1.96 / t) / 2 := by
    rw [div_div, mul_comm t 2]
  rw [h3]

theorem halfk_le_sqrtD (k p : ℝ) (hk : 0 < k) (hp0 : 0 ≤ p) (hp1 : p ≤ 1) :
    k / 2 ≤ Real.sqrt (k * (p * (1 - p)) + k ^ 2 / 4) := by
  have hpp : 0 ≤ p * (1 - p) := mul_nonneg hp0 (by linarith)
  have h1 : (k / 2) ^ 2 ≤ k * (p * (1 - p)) + k ^ 2 / 4 := by nlinarith [mul_nonneg hk.le hpp]
  calc k / 2 = Real.sqrt ((k / 2) ^ 2) := (Real.sqrt_sq (by linarith)).symm
    _ ≤ _ := Real.sqrt_le_sqrt h1

theorem sqrtD_le_a (k p : ℝ) (hk : 0 < k) (hp0 : 0 ≤ p) (hp1 : p ≤ 1) :
    Real.sqrt (k * (p * (1 - p)) + k ^ 2 / 4) ≤ p + k / 2 := by
  have hD : k * (p * (1 - p)) + k ^ 2 / 4 ≤ (p + k / 2) ^ 2 := by
    nlinarith [sq_nonneg p, mul_nonneg hk.le (sq_nonneg p)]
  calc Real.sqrt (k * (p * (1 - p)) + k ^ 2 / 4)
      ≤ Real.sqrt ((p + k / 2) ^ 2) := Real.sqrt_le_sqrt hD
    _ = p + k / 2 := Real.sqrt_sq (by linarith)

theorem wilsonReal_nonneg (t p : ℝ) (ht : 0 < t) (hp0 : 0 ≤ p) (hp1 : p ≤ 1) :
    0 ≤ wilsonReal t p := by
  rw [wilsonReal_eq_kform t p ht]
  have hk : 0 < 1.96 * 1.96 / t := div_pos (by norm_num) ht
  have h1 := sqrtD_le_a (1.96 * 1.96 / t) p hk hp0 hp1
  apply div_nonneg _ (by linarith)
  linarith

theorem wilsonReal_le_phat (t p : ℝ) (ht : 0 < t) (hp0 : 0 ≤ p) (hp1 : p ≤ 1) :
    wilsonReal t p ≤ p := by
  rw [wilsonReal_eq_kform t p ht]
  have hk : 0 < 1.96 * 1.96 / t := div_pos (by norm_num) ht
  set k : ℝ := 1.96 * 1.96 / t with hkdef
  rw [div_le_iff (by linarith : (0 : ℝ) < 1 + k)]
  have key : k / 2 - p * k ≤ Real.sqrt (k * (p * (1 - p)) + k ^ 2 / 4) := by
    rcases le_or_lt (k / 2 - p * k) 0 with h | h
    · exact h.trans (Real.sqrt_nonneg _)
    · have hpp : 0 ≤ p * (1 - p) := mul_nonneg hp0 (by linarith)
      have hsq : (k / 2 - p * k) ^ 2 ≤ k * (p * (1 - p)) + k ^ 2 / 4 := by
        nlinarith [mul_nonneg (mul_nonneg hpp hk.le) hk.le, mul_nonneg hpp hk.le]
      calc k / 2 - p * k = Real.sqrt ((k / 2 - p * k) ^ 2) := (Real.sqrt_sq h.le).symm
        _ ≤ _ := Real.sqrt_le_sqrt hsq
  linarith

theorem wilsonReal_zero (t : ℝ) (ht : 0 < t) : wilsonReal t 0 = 0 := by
  rw [wilsonReal_eq_kform t 0 ht]
  have hk : 0 < 1.96 * 1.96 / t := div_pos (by norm_num) ht
  set k : ℝ := 1.96 * 1.96 / t with hkdef
  have h1 : k * (0 * (1 - 0)) + k ^ 2 / 4 = (k / 2) ^ 2 := by ring
  rw [h1, Real.sqrt_sq (by linarith)]
  simp

theorem wilsonReal_mono (t p q : ℝ) (ht : 0 < t) (hp0 : 0 ≤ p) (hpq : p ≤ q)
    (hq1 : q ≤ 1) : wilsonReal t p ≤ wilsonReal t q := by
  rw [wilsonReal_eq_kform t p ht, wilsonReal_eq_kform t q ht]
  have hk : 0 < 1.96 * 1.96 / t := div_pos (by norm_num) ht
  set k : ℝ := 1.96 * 1.96 / t with hkdef
  have hq0 : 0 ≤ q := hp0.trans hpq
  have hp1 : p ≤ 1 := hpq.trans hq1
  have hppnn : 0 ≤ p * (1 - p) := mul_nonneg hp0 (by linarith)
  have hDp0 : 0 ≤ k * (p * (1 - p)) + k ^ 2 / 4 := by positivity
  have hBp2 : Real.sqrt (k * (p * (1 - p)) + k ^ 2 / 4) ^ 2
      = k * (p * (1 - p)) + k ^ 2 / 4 := Real.sq_sqrt hDp0
  have hBphalf := halfk_le_sqrtD k p hk hp0 hp1
  have hd : (0 : ℝ) ≤ q - p := by linarith
  have h2B : k * (1 - p - q) ≤ 2 * Real.sqrt (k * (p * (1 - p)) + k ^ 2 / 4) := by
    nlinarith [mul_nonneg hk.le (add_nonneg hp0 hq0)]
  have hprod : k * (1 - p - q) * (q - p)
      ≤ 2 * Real.sqrt (k * (p * (1 - p)) + k ^ 2 / 4) * (q - p) :=
    mul_le_mul_of_nonneg_right h2B hd
  have hkey : Real.sqrt (k * (q * (1 - q)) + k ^ 2 / 4)
      ≤ Real.sqrt (k * (p * (1 - p)) + k ^ 2 / 4) + (q - p) := by
    have h2 : k * (q * (1 - q)) + k ^ 2 / 4
        ≤ (Real.sqrt (k * (p * (1 - p)) + k ^ 2 / 4) + (q - p)) ^ 2 := by
      nlinarith [hprod, hBp2, sq_nonneg (q - p)]
    calc Real.sqrt (k * (q * (1 - q)) + k ^ 2 / 4)
        ≤ Real.sqrt ((Real.sqrt (k * (p * (1 - p)) + k ^ 2 / 4) + (q - p)) ^ 2) :=
          Real.sqrt_le_sqrt h2
      _ = _ := Real.sqrt_sq (by nlinarith [Real.sqrt_nonneg (k * (p * (1 - p)) + k ^ 2 / 4)])
  have hnum : p + k / 2 - Real.sqrt (k * (p * (1 - p)) + k ^ 2 / 4)
      ≤ q + k / 2 - Real.sqrt (k * (q * (1 - q)) + k ^ 2 / 4) := by linarith
  exact (div_le_div_right (by linarith : (0 : ℝ) < 1 + k)).mpr hnum

theorem wsi_lower_eq_wilsonReal (w t : ℕ) :
    wsi_lower w t = wilsonReal (t : ℝ) ((w : ℝ) / (t : ℝ)) := rfl

/-- C7: for all integers `total ≥ 1` and `0 ≤ wins ≤ total`, the Wilson lower
bound `wsi_lower(wins, total)` (computed with `z = 1.96`) lies in `[0, 1]`,
is at most `wins/total`, equals `0` when `wins = 0`, and is monotonically
non-decreasing in `wins` for fixed `total`. -/
theorem wsi_lower_wilson_bounds (wins total : ℕ) (h1 : 1 ≤ total) (h2 : wins ≤ total) :
    0 ≤ wsi_lower wins total
      ∧ wsi_lower wins total ≤ (wins : ℝ) / (total : ℝ)
      ∧ wsi_lower wins total ≤ 1
      ∧ wsi_lower 0 total = 0
      ∧ (∀ w1 w2 : ℕ, w1 ≤ w2 → w2 ≤ total →
          wsi_lower w1 total ≤ wsi_lower w2 total) := by
  have ht : (0 : ℝ) < (total : ℝ) := by
    have : 0 < total := h1
    exact_mod_cast this
  have hp0 : 0 ≤ (wins : ℝ) / (total : ℝ) := div_nonneg (Nat.cast_nonneg _) ht.le
  have hp1 : (wins : ℝ) / (total : ℝ) ≤ 1 := by
    rw [div_le_one ht]; exact_mod_cast h2
  refine ⟨?_, ?_, ?_, ?_, ?_⟩
  · rw [wsi_lower_eq_wilsonReal]
    exact wilsonReal_nonneg _ _ ht hp0 hp1
  · rw [wsi_lower_eq_wilsonReal]
    exact wilsonReal_le_phat _ _ ht hp0 hp1
  · rw [wsi_lower_eq_wilsonReal]
    exact (wilsonReal_le_phat _ _ ht hp0 hp1).trans hp1
  · rw [wsi_lower_eq_wilsonReal]
    have h0 : ((0 : ℕ) : ℝ) / (total : ℝ) = 0 := by simp
    rw [h0]
    exact wilsonReal_zero _ ht
  · intro w1 w2 hw hw2
    rw [wsi_lower_eq_wilsonReal, wsi_lower_eq_wilsonReal]
    apply wilsonReal_mono _ _ _ ht (div_nonneg (Nat.cast_nonneg _) ht.le)
    · exact div_le_div_of_nonneg_right (by exact_mod_cast hw) ht.le
    · rw [div_le_one ht]; exact_mod_cast hw2

/-- Witness for C7 at `wins = 1`, `total = 2`. -/
theorem wsi_lower_wilson_bounds_witness :
    0 ≤ wsi_lower 1 2 ∧ wsi_lower 1 2 ≤ (1 : ℝ) / 2 ∧ wsi_lower 1 2 ≤ 1 := by
  obtain ⟨ha, hb, hc, _, _⟩ := wsi_lower_wilson_bounds 1 2 (by decide) (by decide)
  refine ⟨ha, ?_, hc⟩
  have : ((1 : ℕ) : ℝ) / ((2 : ℕ) : ℝ) = (1 : ℝ) / 2 := by norm_num
  rw [← this]
  exact hb

/-- C6: `winrate` returns 1.0 at a checkmate with the non-point-of-view side
to move, 0.0 at a checkmate with the point-of-view side to move, 0.0 for a
non-checkmate position whose statistics report zero total games (no division
is attempted), and otherwise the Wilson lower bound of wins-for-side over
total. -/
theorem winrate_cases {Board Move : Type} (R : Rules Board Move)
    (resp : String → StatsResp Move) (b : Board) (pov : Bool) :
    (R.is_checkmate b = true → R.turn b ≠ pov → winrate R resp b pov = 1)
      ∧ (R.is_checkmate b = true → R.turn b = pov → winrate R resp b pov = 0)
      ∧ (R.is_checkmate b = false →
          (resp (R.fen b)).white + (resp (R.fen b)).black + (resp (R.fen b)).draws = 0 →
          winrate R resp b pov = 0)
      ∧ (R.is_checkmate b = false →
          (resp (R.fen b)).white + (resp (R.fen b)).black + (resp (R.fen b)).draws ≠ 0 →
          winrate R resp b pov =
            wsi_lower (if pov then (resp (R.fen b)).white else (resp (R.fen b)).black)
              ((resp (R.fen b)).white + (resp (R.fen b)).black + (resp (R.fen b)).draws)) := by
  refine ⟨?_, ?_, ?_, ?_⟩ <;> intro hc ht <;> simp [winrate, hc, ht] <;> norm_num

/-- Witness for C6: a checkmate with black (non-pov) to deliver... with white
to move and pov black gives 1; pov equal to the side to move gives 0; a
zero-games position gives 0; a 7-2-1 position gives the Wilson bound of
7/10. -/
theorem winrate_cases_witness :
    winrate c6_rules c6_resp 0 false = 1
      ∧ winrate c6_rules c6_resp 1 true = 0
      ∧ winrate c6_rules c6_resp 2 true = 0
      ∧ winrate c6_rules c6_resp 3 true = wsi_lower 7 10 := by
  refine ⟨?_, ?_, ?_, ?_⟩
  · exact (winrate_cases c6_rules c6_resp 0 false).1 (by decide) (by decide)
  · exact (winrate_cases c6_rules c6_resp 1 true).2.1 (by decide) (by decide)
  · exact (winrate_cases c6_rules c6_resp 2 true).2.2.1 (by decide) (by decide)
  · have h := (winrate_cases c6_rules c6_resp 3 true).2.2.2 (by decide) (by decide)
    simpa [c6_rules, c6_resp] using h

/-- C2 amended: the Analysis-Engine fallback of `find_best_move` runs if and
only if fewer than 2 candidates were evaluated, or `top_score` is more than
5% (relative) below `before`, or `top_score` exceeds `before` by **more**
than 1 percentage point while remaining below the absolute floor 0.45 —
where `top_score` is the maximum of the evaluated candidate scores (0 when
none were evaluated) and `before` the heuristic value of the current
position. -/
theorem find_best_move_fallback_iff {Board Move : Type} (R : Rules Board Move)
    (resp : String → StatsResp Move) (heuristic : Board → Bool → ℚ)
    (sf : Board → Bool → ℚ) (b : Board) :
    (find_best_move R resp heuristic sf b).2 = true ↔
      ((find_best_move_scores R resp heuristic b).length < 2
        ∨ max_score (find_best_move_scores R resp heuristic b)
            < 95/100 * heuristic b (R.turn b)
        ∨ ((1 : ℚ)/100 < max_score (find_best_move_scores R resp heuristic b)
              - heuristic b (R.turn b)
            ∧ max_score (find_best_move_scores R resp heuristic b) < 45/100)) := by
  have hmap : (((find_best_move_candidates resp (R.fen b)).map
        fun m => (m, heuristic (R.push b m) (R.turn b))).map Prod.snd)
      = find_best_move_scores R resp heuristic b := by
    rw [List.map_map]
    rfl
  simp only [find_best_move, head_score_sortDescBy, hmap, find_best_move_scores,
    List.length_map, Bool.or_eq_true, Bool.and_eq_true, decide_eq_true_eq]
  exact or_assoc

/-- Counterexample refuting C2 as stated: with two candidates evaluated,
`before = 0.2` and `top_score = 0.205`, the spec's trigger (top score above
`before` by less than 1 percentage point and below 0.45) holds, yet the code
does not run the fallback — its third trigger requires the excess to be
**more** than 1 point. -/
theorem find_best_move_fallback_spec_counterexample :
    spec_fallback_trigger (find_best_move_scores c2_rules c2_resp c2_heuristic 0).length
        (max_score (find_best_move_scores c2_rules c2_resp c2_heuristic 0))
        (c2_heuristic 0 true)
      ∧ (find_best_move c2_rules c2_resp c2_heuristic (fun _ _ => 0) 0).2 = false := by
  have hs : find_best_move_scores c2_rules c2_resp c2_heuristic 0 = [41/200, 1/10] := by
    norm_num [find_best_move_scores, find_best_move_candidates, get_moves_table,
      c2_rules, c2_resp, c2_heuristic, sortDescBy, List.insertionSort, List.orderedInsert]
  have hm : max_score [(41 : ℚ)/200, 1/10] = 41/200 := by
    simp only [max_score, List.foldl]
    exact max_eq_left (by norm_num)
  constructor
  · unfold spec_fallback_trigger
    right
    right
    rw [hs, hm]
    refine ⟨?_, ?_, ?_⟩ <;> norm_num [c2_heuristic]
  · refine Bool.eq_false_iff.mpr fun hflag => ?_
    have h2 := (find_best_move_fallback_iff c2_rules c2_resp c2_heuristic
      (fun _ _ => 0) 0).mp hflag
    rw [hs, hm] at h2
    norm_num [c2_heuristic, c2_rules] at h2

/-- C8 amended: with `min_count = 2`, `get_opposing_moves` returns at most
10 moves; when fewer than 2 table moves pass the share/absolute-count
filter, it returns the top 2 table moves by raw share; and it returns at
least `min(2, number of table moves)` moves — in particular fewer than 2
when the table itself has fewer than 2 moves. -/
theorem get_opposing_moves_bounds {Board Move : Type} (R : Rules Board Move)
    (resp : String → StatsResp Move) (b : Board) (min_pct : ℚ) :
    (get_opposing_moves R resp b 2 min_pct).length ≤ 10
      ∧ min 2 (get_moves_table resp (R.fen b) 200).length
          ≤ (get_opposing_moves R resp b 2 min_pct).length
      ∧ (((get_moves_table resp (R.fen b) 200).filter
            fun e => min_pct < e.2.1 ∨ 100000 < e.2.2).length < 2 →
          get_opposing_moves R resp b 2 min_pct =
            ((sortDescBy (fun e => e.2.1)
              (get_moves_table resp (R.fen b) 200)).map (·.1)).take 2) := by
  unfold get_opposing_moves
  by_cases h : 2 ≤ ((get_moves_table resp (R.fen b) 200).filter
      fun e => min_pct < e.2.1 ∨ 100000 < e.2.2).length
  · rw [if_pos (by simpa [List.length_map] using h)]
    refine ⟨List.length_take_le _ _, ?_, ?_⟩
    · rw [List.length_take, List.length_map]
      exact le_trans (min_le_left _ _) (le_min (by norm_num) h)
    · intro hlt
      omega
  · rw [if_neg (by simpa [List.length_map] using h)]
    push_neg at h
    refine ⟨?_, ?_, fun _ => rfl⟩
    · exact le_trans (List.length_take_le _ _) (by norm_num)
    · rw [List.length_take, List.length_map,
        (sortDescBy_perm (fun e : Move × ℚ × ℕ => e.2.1) _).length_eq]

/-- Counterexample refuting C8 as stated: at a position whose statistics are
below the 200-game reliability threshold the move table is empty and
`get_opposing_moves` returns no moves at all — not "at least `min_count`". -/
theorem get_opposing_moves_empty_counterexample :
    get_opposing_moves c8_rules c8_resp 0 2 (1/2) = [] := by decide

/-- Witness for C8's fallback branch: with an empty table the filter passes
fewer than 2 moves and the result is the top-2-by-share list. -/
theorem get_opposing_moves_bounds_witness :
    get_opposing_moves c8_rules c8_resp 5 2 (1/2) =
      ((sortDescBy (fun e => e.2.1)
        (get_moves_table c8_resp (c8_rules.fen 5) 200)).map (·.1)).take 2 :=
  (get_opposing_moves_bounds c8_rules c8_resp 5 (1/2)).2.2 (by decide)

/-- C5: evaluating `find_best_move` at a position with an empty statistical
shortlist and no legal moves.  The fallback triggers (fewer than 2
candidates) but contributes nothing, the final pool is empty, and the
function fails to produce a move — `sorted(moves, ...)[0]` raises
`IndexError` in the Python code (modelled by `none`), aborting the whole
build instead of terminating the branch. -/
theorem find_best_move_empty_raises :
    find_best_move c5_rules c5_resp (fun _ _ => 0) (fun _ _ => 0) 0 = (none, true) := by
  norm_num [find_best_move, find_best_move_candidates, get_moves_table, c5_rules,
    c5_resp, sortDescBy, List.insertionSort, head_score]

/-- Each failed attempt of the retry loop sleeps (60 s on rate limit, 300 s
on error) and retries; when no attempt in the remaining budget parses a
response, the loop falls off the end with no value and one cool-down sleep
per budgeted attempt. -/
theorem gmtf_loop_exhausted {Move : Type} (attempt : ℕ → ReqResult Move) :
    ∀ fuel k, (∀ j, k ≤ j → j < k + fuel → ∀ r, attempt j ≠ ReqResult.json r) →
      (gmtf_loop attempt fuel k).1 = none
        ∧ (gmtf_loop attempt fuel k).2.length = fuel
        ∧ ∀ s ∈ (gmtf_loop attempt fuel k).2, s = 60 ∨ s = 300 := by
  intro fuel
  induction fuel with
  | zero =>
    intro k _
    refine ⟨rfl, rfl, ?_⟩
    intro s hs
    simp [gmtf_loop] at hs
  | succ n ih =>
    intro k h
    obtain ⟨ha, hb, hc⟩ := ih (k + 1) (fun j hj1 hj2 r => h j (by omega) (by omega) r)
    cases e : attempt k with
    | json r => exact absurd e (h k (le_refl k) (by omega) r)
    | rate =>
      refine ⟨?_, ?_, ?_⟩
      · simpa [gmtf_loop, e] using ha
      · simp [gmtf_loop, e, hb]
      · intro s hs
        simp only [gmtf_loop, e, List.mem_cons] at hs
        rcases hs with rfl | hs
        · exact Or.inl rfl
        · exact hc s hs
    | err =>
      refine ⟨?_, ?_, ?_⟩
      · simpa [gmtf_loop, e] using ha
      · simp [gmtf_loop, e, hb]
      · intro s hs
        simp only [gmtf_loop, e, List.mem_cons] at hs
        rcases hs with rfl | hs
        · exact Or.inr rfl
        · exact hc s hs

/-- C3 amended: every statistics lookup makes at most 3 request attempts,
sleeping a cool-down (60 s after a rate limit, 300 s after an error) after
each failed one; when all 3 attempts fail the function returns **no value**
(Python `None`) — not an empty move table — so callers that index into the
result would raise. -/
theorem get_moves_table_fen_exhausted {Move : Type} (attempt : ℕ → ReqResult Move)
    (h : ∀ k, k < 3 → ∀ r, attempt k ≠ ReqResult.json r) :
    (get_moves_table_fen attempt).1 = none
      ∧ (get_moves_table_fen attempt).2.length = 3
      ∧ ∀ s ∈ (get_moves_table_fen attempt).2, s = 60 ∨ s = 300 :=
  gmtf_loop_exhausted attempt 3 0 (fun j _ hj2 r => h j (by omega) r)

/-- Counterexample refuting C3 as stated: when every request raises, the
lookup returns `none` (the Python function returns `None`), not an
empty/zero-evidence move table — there is no `StatsResp` value at all for
callers to treat as zero totals. -/
theorem get_moves_table_fen_none_counterexample :
    (get_moves_table_fen (fun _ => (ReqResult.err : ReqResult ℕ))).1 = none := rfl

/-- Witness for C3 with every attempt rate-limited. -/
theorem get_moves_table_fen_exhausted_witness :
    (get_moves_table_fen (fun _ => (ReqResult.rate : ReqResult ℕ))).1 = none
      ∧ (get_moves_table_fen (fun _ => (ReqResult.rate : ReqResult ℕ))).2.length = 3 := by
  have h := get_moves_table_fen_exhausted (fun _ => (ReqResult.rate : ReqResult ℕ))
    (fun k _ r hk => ReqResult.noConfusion hk)
  exact ⟨h.1, h.2.1⟩

/-- The scanning pass of `prune` partitions its input: deduped nodes and
terminal nodes together are a permutation of the accumulators plus the
scanned nodes. -/
theorem pruneAux_perm {Board Move : Type} (R : Rules Board Move)
    (resp : String → StatsResp Move) :
    ∀ (bs : List Board) (totals : List (String × ℕ)) (ded term : List Board),
      List.Perm
        ((pruneAux R resp bs totals ded term).2.1 ++ (pruneAux R resp bs totals ded term).2.2)
        (ded ++ term ++ bs) := by
  intro bs
  induction bs with
  | nil =>
    intro totals ded term
    simp [pruneAux]
  | cons b bs ih =>
    intro totals ded term
    cases halk : alookup (R.fen b) totals with
    | some v =>
      have h := ih totals ded (term ++ [b])
      simp only [pruneAux, halk]
      refine h.trans ?_
      simp [List.append_assoc]
    | none =>
      simp only [pruneAux, halk]
      split
      · have h := ih (totals ++ [(R.fen b,
          ((get_moves_table resp (R.fen b) 200).map fun e => e.2.2).sum)]) ded (term ++ [b])
        refine h.trans ?_
        simp [List.append_assoc]
      · have h := ih (totals ++ [(R.fen b,
          ((get_moves_table resp (R.fen b) 200).map fun e => e.2.2).sum)]) (ded ++ [b]) term
        refine h.trans ?_
        have h2 : List.Perm (b :: (term ++ bs)) (term ++ b :: bs) := List.perm_middle.symm
        have h3 := List.Perm.append_left ded h2
        simpa [List.append_assoc] using h3

/-- C9: every `prune(q, target_width)` returns a surviving frontier of size
at most `target_width`, and the survivors together with the
discarded/terminal list are a permutation of the input queue — no node is
silently lost and none is duplicated. -/
theorem prune_partition {Board Move : Type} (R : Rules Board Move)
    (resp : String → StatsResp Move) (q : List Board) (amt : ℕ) :
    (prune R resp q amt).1.length ≤ amt
      ∧ List.Perm ((prune R resp q amt).1 ++ (prune R resp q amt).2) q := by
  constructor
  · exact List.length_take_le _ _
  · have hpr : prune R resp q amt
        = ((sortDescBy (fun b => (alookup (R.fen b) (pruneAux R resp q [] [] []).1).getD 0)
              (pruneAux R resp q [] [] []).2.1).take amt,
           (sortDescBy (fun b => (alookup (R.fen b) (pruneAux R resp q [] [] []).1).getD 0)
              (pruneAux R resp q [] [] []).2.1).drop amt
             ++ (pruneAux R resp q [] [] []).2.2) := rfl
    rw [hpr]
    rw [show ∀ (x y z : List Board), x ++ (y ++ z) = (x ++ y) ++ z from
      fun x y z => (List.append_assoc x y z).symm, List.take_append_drop]
    refine ((sortDescBy_perm _ _).append_right _).trans ?_
    simpa using pruneAux_perm R resp q [] [] []

/-- The terminal accumulator of `prune`'s scanning pass only grows. -/
theorem pruneAux_term_suffix {Board Move : Type} (R : Rules Board Move)
    (resp : String → StatsResp Move) :
    ∀ (bs : List Board) (totals : List (String × ℕ)) (ded term : List Board),
      ∃ t', (pruneAux R resp bs totals ded term).2.2 = term ++ t' := by
  intro bs
  induction bs with
  | nil =>
    intro totals ded term
    exact ⟨[], by simp [pruneAux]⟩
  | cons b bs ih =>
    intro totals ded term
    cases halk : alookup (R.fen b) totals with
    | some v =>
      obtain ⟨t', ht'⟩ := ih totals ded (term ++ [b])
      refine ⟨[b] ++ t', ?_⟩
      simp only [pruneAux, halk]
      rw [ht', List.append_assoc]
    | none =>
      simp only [pruneAux, halk]
      split
      · obtain ⟨t', ht'⟩ := ih (totals ++ [(R.fen b,
          ((get_moves_table resp (R.fen b) 200).map fun e => e.2.2).sum)]) ded (term ++ [b])
        refine ⟨[b] ++ t', ?_⟩
        rw [ht', List.append_assoc]
      · exact ih (totals ++ [(R.fen b,
          ((get_moves_table resp (R.fen b) 200).map fun e => e.2.2).sum)]) (ded ++ [b]) term

/-- Invariants of `prune`'s scanning pass, parametrised by the already
scanned prefix `pre`: provided the `totals` dict is populated exactly at the
full FENs of `pre`, every deduped node is the first scanned node with its
full FEN and deduped full FENs are pairwise distinct; moreover any scanned
node whose full FEN occurs strictly earlier in the scan lands in the
terminal list. -/
theorem pruneAux_dedup {Board Move : Type} (R : Rules Board Move)
    (resp : String → StatsResp Move) :
    ∀ (bs : List Board) (totals : List (String × ℕ)) (ded term pre : List Board),
      (∀ f, (alookup f totals).isSome ↔ f ∈ pre.map R.fen) →
      (∀ b ∈ ded, pre.find? (fun a => decide (R.fen a = R.fen b)) = some b) →
      ((ded.map R.fen).Nodup) →
      (((pruneAux R resp bs totals ded term).2.1.map R.fen).Nodup)
        ∧ (∀ b ∈ (pruneAux R resp bs totals ded term).2.1,
            (pre ++ bs).find? (fun a => decide (R.fen a = R.fen b)) = some b)
        ∧ (∀ (l1 l2 : List Board) (x : Board), bs = l1 ++ x :: l2 →
            ((alookup (R.fen x) totals).isSome ∨ ∃ y ∈ l1, R.fen y = R.fen x) →
            x ∈ (pruneAux R resp bs totals ded term).2.2) := by
  intro bs
  induction bs with
  | nil =>
    intro totals ded term pre hiff hfind hnodup
    refine ⟨hnodup, ?_, ?_⟩
    · intro b hb
      simpa using hfind b hb
    · intro l1 l2 x heq
      exact absurd heq.symm (List.append_ne_nil_of_right_ne_nil l1 (List.cons_ne_nil x l2))
  | cons b bs ih =>
    intro totals ded term pre hiff hfind hnodup
    cases halk : alookup (R.fen b) totals with
    | some v =>
      have hiff' : ∀ f, (alookup f totals).isSome ↔ f ∈ ((pre ++ [b]).map R.fen) := by
        intro f
        rw [List.map_append, List.mem_append]
        constructor
        · intro hf
          exact Or.inl ((hiff f).mp hf)
        · rintro (hf | hf)
          · exact (hiff f).mpr hf
          · simp only [List.map_cons, List.map_nil, List.mem_singleton] at hf
            rw [hf, halk]
            rfl
      have hfind' : ∀ b' ∈ ded,
          (pre ++ [b]).find? (fun a => decide (R.fen a = R.fen b')) = some b' :=
        fun b' hb' => find?_append_some _ _ _ _ (hfind b' hb')
      obtain ⟨ih1, ih2, ih3⟩ := ih totals ded (term ++ [b]) (pre ++ [b]) hiff' hfind' hnodup
      have hterm := pruneAux_term_suffix R resp bs totals ded (term ++ [b])
      refine ⟨?_, ?_, ?_⟩
      · simpa only [pruneAux, halk] using ih1
      · intro b' hb'
        simp only [pruneAux, halk] at hb'
        have h := ih2 b' hb'
        rwa [List.append_assoc] at h
      · intro l1 l2 x heq hcond
        simp only [pruneAux, halk]
        cases l1 with
        | nil =>
          simp only [List.nil_append, List.cons.injEq] at heq
          obtain ⟨rfl, rfl⟩ := heq
          obtain ⟨t', ht'⟩ := hterm
          rw [ht']
          exact List.mem_append_left _ (List.mem_append_right _ (List.mem_singleton_self _))
        | cons y l1' =>
          simp only [List.cons_append, List.cons.injEq] at heq
          obtain ⟨rfl, heq'⟩ := heq
          apply ih3 l1' l2 x heq'
          rcases hcond with hc | ⟨z, hz, hzf⟩
          · exact Or.inl hc
          · rcases List.mem_cons.mp hz with rfl | hz'
            · left
              rw [← hzf, halk]
              rfl
            · exact Or.inr ⟨z, hz', hzf⟩
    | none =>
      have hiff' : ∀ f, (alookup f (totals ++ [(R.fen b,
            ((get_moves_table resp (R.fen b) 200).map fun e => e.2.2).sum)])).isSome
          ↔ f ∈ ((pre ++ [b]).map R.fen) := by
        intro f
        rw [List.map_append, List.mem_append, alookup_append]
        cases hf1 : alookup f totals with
        | some w =>
          simp only [Option.isSome_some, true_iff]
          exact Or.inl ((hiff f).mp (by rw [hf1]; rfl))
        | none =>
          simp only [alookup]
          by_cases hfb : R.fen b = f
          · subst hfb
            simp
          · rw [if_neg hfb]
            simp only [alookup, Option.isSome_none]
            constructor
            · intro h
              exact absurd h (by simp)
            · rintro (hf | hf)
              · have h := (hiff f).mpr hf
                rw [hf1] at h
                exact absurd h (by simp)
              · simp only [List.map_cons, List.map_nil, List.mem_singleton] at hf
                exact absurd hf.symm hfb
      have hfen_not_pre : R.fen b ∉ pre.map R.fen := by
        intro hmem
        have h := (hiff (R.fen b)).mpr hmem
        rw [halk] at h
        exact absurd h (by simp)
      have hpre_none : pre.find? (fun a => decide (R.fen a = R.fen b)) = none := by
        rw [List.find?_eq_none]
        intro a ha hda
        have hfa : R.fen a = R.fen b := of_decide_eq_true hda
        exact hfen_not_pre (hfa ▸ List.mem_map_of_mem R.fen ha)
      simp only [pruneAux, halk]
      split
      · -- total below 200: the node goes to the terminal accumulator
        have hfind' : ∀ b' ∈ ded,
            (pre ++ [b]).find? (fun a => decide (R.fen a = R.fen b')) = some b' :=
          fun b' hb' => find?_append_some _ _ _ _ (hfind b' hb')
        obtain ⟨ih1, ih2, ih3⟩ := ih (totals ++ [(R.fen b,
            ((get_moves_table resp (R.fen b) 200).map fun e => e.2.2).sum)])
          ded (term ++ [b]) (pre ++ [b]) hiff' hfind' hnodup
        refine ⟨ih1, ?_, ?_⟩
        · intro b' hb'
          have h := ih2 b' hb'
          rwa [List.append_assoc] at h
        · intro l1 l2 x heq hcond
          cases l1 with
          | nil =>
            simp only [List.nil_append, List.cons.injEq] at heq
            obtain ⟨rfl, rfl⟩ := heq
            rcases hcond with hc | ⟨z, hz, _⟩
            · rw [halk] at hc
              exact absurd hc (by simp)
            · exact absurd hz (List.not_mem_nil z)
          | cons y l1' =>
            simp only [List.cons_append, List.cons.injEq] at heq
            obtain ⟨rfl, heq'⟩ := heq
            apply ih3 l1' l2 x heq'
            rcases hcond with hc | ⟨z, hz, hzf⟩
            · left
              rw [alookup_append]
              cases hx : alookup (R.fen x) totals with
              | some w => rfl
              | none =>
                rw [hx] at hc
                exact absurd hc (by simp)
            · rcases List.mem_cons.mp hz with rfl | hz'
              · left
                rw [alookup_append, ← hzf, halk]
                simp [alookup]
              · exact Or.inr ⟨z, hz', hzf⟩
      · -- total at least 200: the node joins the deduped list
        have hfind' : ∀ b' ∈ ded ++ [b],
            (pre ++ [b]).find? (fun a => decide (R.fen a = R.fen b')) = some b' := by
          intro b' hb'
          rcases List.mem_append.mp hb' with hb' | hb'
          · exact find?_append_some _ _ _ _ (hfind b' hb')
          · rw [List.mem_singleton] at hb'
            subst hb'
            rw [find?_append_none _ _ _ hpre_none]
            simp [List.find?]
        have hfen_not_ded : R.fen b ∉ ded.map R.fen := by
          intro hmem
          obtain ⟨b', hb', hfb'⟩ := List.mem_map.mp hmem
          have h1 := hfind b' hb'
          have h2 : b' ∈ pre := List.mem_of_find?_eq_some h1
          exact hfen_not_pre (hfb' ▸ List.mem_map_of_mem R.fen h2)
        have hnodup' : ((ded ++ [b]).map R.fen).Nodup := by
          rw [List.map_append]
          rw [List.nodup_append]
          refine ⟨hnodup, List.nodup_singleton _, ?_⟩
          intro a ha hb'
          simp only [List.map_cons, List.map_nil, List.mem_singleton] at hb'
          subst hb'
          exact hfen_not_ded ha
        obtain ⟨ih1, ih2, ih3⟩ := ih (totals ++ [(R.fen b,
            ((get_moves_table resp (R.fen b) 200).map fun e => e.2.2).sum)])
          (ded ++ [b]) term (pre ++ [b]) hiff' hfind' hnodup'
        refine ⟨ih1, ?_, ?_⟩
        · intro b' hb'
          have h := ih2 b' hb'
          rwa [List.append_assoc] at h
        · intro l1 l2 x heq hcond
          cases l1 with
          | nil =>
            simp only [List.nil_append, List.cons.injEq] at heq
            obtain ⟨rfl, rfl⟩ := heq
            rcases hcond with hc | ⟨z, hz, _⟩
            · rw [halk] at hc
              exact absurd hc (by simp)
            · exact absurd hz (List.not_mem_nil z)
          | cons y l1' =>
            simp only [List.cons_append, List.cons.injEq] at heq
            obtain ⟨rfl, heq'⟩ := heq
            apply ih3 l1' l2 x heq'
            rcases hcond with hc | ⟨z, hz, hzf⟩
            · left
              rw [alookup_append]
              cases hx : alookup (R.fen x) totals with
              | some w => rfl
              | none =>
                rw [hx] at hc
                exact absurd hc (by simp)
            · rcases List.mem_cons.mp hz with rfl | hz'
              · left
                rw [alookup_append, ← hzf, halk]
                simp [alookup]
              · exact Or.inr ⟨z, hz', hzf⟩

/-- C4 amended: `prune` deduplicates by the **full FEN** (side to move,
castling, en passant and move counters included), not by the board-only
canonical key: among input nodes sharing the same full FEN only the first
seen may survive (every survivor is the first queued node with its full
FEN), every later node with an already-seen full FEN is moved to the
discarded/terminal list, and no two survivors share a full FEN. -/
theorem prune_dedup_by_full_fen {Board Move : Type} (R : Rules Board Move)
    (resp : String → StatsResp Move) (q : List Board) (amt : ℕ) :
    (((prune R resp q amt).1.map R.fen).Nodup)
      ∧ (∀ b ∈ (prune R resp q amt).1,
          q.find? (fun a => decide (R.fen a = R.fen b)) = some b)
      ∧ (∀ (l1 l2 : List Board) (x : Board), q = l1 ++ x :: l2 →
          (∃ y ∈ l1, R.fen y = R.fen x) → x ∈ (prune R resp q amt).2) := by
  obtain ⟨h1, h2, h3⟩ := pruneAux_dedup R resp q [] [] [] []
    (by intro f; simp [alookup])
    (by intro b hb; exact absurd hb (List.not_mem_nil b))
    (by simp)
  have hperm : List.Perm
      (sortDescBy (fun b => (alookup (R.fen b) (pruneAux R resp q [] [] []).1).getD 0)
        (pruneAux R resp q [] [] []).2.1)
      ((pruneAux R resp q [] [] []).2.1) := sortDescBy_perm _ _
  refine ⟨?_, ?_, ?_⟩
  · exact ((List.take_sublist amt _).map R.fen).nodup ((hperm.map R.fen).symm.nodup h1)
  · intro b hb
    have hb1 : b ∈ sortDescBy
        (fun b => (alookup (R.fen b) (pruneAux R resp q [] [] []).1).getD 0)
        (pruneAux R resp q [] [] []).2.1 := List.mem_of_mem_take hb
    have hb2 : b ∈ (pruneAux R resp q [] [] []).2.1 := hperm.mem_iff.mp hb1
    simpa using h2 b hb2
  · intro l1 l2 x heq hex
    exact List.mem_append_right _ (h3 l1 l2 x heq (Or.inr hex))

/-- Counterexample refuting C4 as stated: two queued nodes with the same
piece placement (same canonical board key) but different full FENs both
survive `prune` — the code keys its dedup dict on `b.fen()`, the full FEN,
so neither node is recognised as a transposition of the other. -/
theorem prune_board_key_counterexample :
    (prune c4_rules c4_resp [1, 2] 2).1 = [1, 2]
      ∧ c4_rules.board_fen 1 = c4_rules.board_fen 2 ∧ (1 : ℕ) ≠ 2 := by
  refine ⟨?_, rfl, by norm_num⟩
  rfl

/-- Witness for C4: a literal duplicate (same full FEN seen earlier) is
moved to the discarded/terminal part of the prune result. -/
theorem prune_dedup_by_full_fen_witness :
    (3 : ℕ) ∈ (prune c4_rules c4_resp [3, 3] 2).2 :=
  (prune_dedup_by_full_fen c4_rules c4_resp [3, 3] 2).2.2 [3] [] 3 rfl
    ⟨3, List.mem_singleton_self 3, rfl⟩

/-- The child-expansion pass invokes the best-move oracle only on
`best_moves` cache misses: the invocation log stays duplicate-free, and
every logged key is present in the cache afterwards. -/
theorem expandChildren_invoked {Board Move : Type} (R : Rules Board Move)
    (fbm : Board → Move) (board : Board) :
    ∀ (ms : List Move) (bm : List (String × Move)) (q : List Board) (inv : List String),
      inv.Nodup → (∀ f ∈ inv, (alookup f bm).isSome) →
      ((expandChildren R fbm board ms bm q inv).2.2.1.Nodup
        ∧ ∀ f ∈ (expandChildren R fbm board ms bm q inv).2.2.1,
            (alookup f (expandChildren R fbm board ms bm q inv).1).isSome) := by
  intro ms
  induction ms with
  | nil =>
    intro bm q inv h1 h2
    exact ⟨h1, h2⟩
  | cons m ms ih =>
    intro bm q inv h1 h2
    cases halk : alookup (R.board_fen (R.push board m)) bm with
    | some best =>
      simp only [expandChildren, halk]
      exact ih bm _ inv h1 h2
    | none =>
      simp only [expandChildren, halk]
      apply ih
      · rw [List.nodup_append]
        refine ⟨h1, List.nodup_singleton _, ?_⟩
        intro a ha hb
        rw [List.mem_singleton] at hb
        subst hb
        have h := h2 (R.board_fen (R.push board m)) ha
        rw [halk] at h
        exact absurd h (by simp)
      · intro f hf
        rcases List.mem_append.mp hf with hf | hf
        · simp only [alookup]
          split
          · rfl
          · exact h2 f hf
        · rw [List.mem_singleton] at hf
          subst hf
          simp [alookup]

/-- The expansion loop of `build` preserves the cache/invocation invariant:
the invocation log stays duplicate-free and every logged key is in the
`best_moves` cache. -/
theorem buildLoop_invoked {Board Move : Type} (R : Rules Board Move)
    (resp : String → StatsResp Move) (fbm : Board → Move) (color : Bool)
    (max_ply prune_factor : ℕ) :
    ∀ (fuel : ℕ) (s : BState Board Move),
      s.invoked.Nodup → (∀ f ∈ s.invoked, (alookup f s.best_moves).isSome) →
      ((buildLoop R resp fbm color max_ply prune_factor fuel s).1.invoked.Nodup
        ∧ ∀ f ∈ (buildLoop R resp fbm color max_ply prune_factor fuel s).1.invoked,
            (alookup f (buildLoop R resp fbm color max_ply prune_factor fuel s).1.best_moves).isSome) := by
  intro fuel
  induction fuel with
  | zero =>
    intro s h1 h2
    exact ⟨h1, h2⟩
  | succ fuel ih =>
    intro s h1 h2
    simp only [buildLoop]
    cases hq : s.q.getLast? with
    | none => exact ⟨h1, h2⟩
    | some last =>
      dsimp only
      by_cases hply : R.ply last = s.lastPly
      · rw [if_pos hply]
        dsimp only
        rw [hq]
        dsimp only
        have hE := expandChildren_invoked R fbm last (get_opposing_moves R resp last 2 (1 / 2))
          s.best_moves s.q.dropLast s.invoked h1 h2
        split_ifs <;>
          first
          | exact ih _ h1 h2
          | (refine ih _ ?_ ?_; exacts [hE.1, hE.2])
      · rw [if_neg hply]
        dsimp only
        cases hq2 : (prune R resp s.q (R.ply last * prune_factor)).1.getLast? with
        | none => exact ⟨h1, h2⟩
        | some board =>
          dsimp only
          have hE := expandChildren_invoked R fbm board
            (get_opposing_moves R resp board 2 (1 / 2)) s.best_moves
            (prune R resp s.q (R.ply last * prune_factor)).1.dropLast s.invoked h1 h2
          split_ifs <;>
            first
            | exact ih _ h1 h2
            | (refine ih _ ?_ ?_; exacts [hE.1, hE.2])

/-- C10: within a single `build` run, the expansion loop keys its best-move
cache on the piece-placement-only `board_fen`; the set of keys on which
`find_best_move` is actually invoked is duplicate-free — for any two child
positions with identical piece placement the function runs for at most one
of them, the other reusing the first's cached move. -/
theorem build_invoked_nodup {Board Move : Type} (R : Rules Board Move)
    (resp : String → StatsResp Move) (fbm : Board → Move) (color : Bool)
    (max_ply prune_factor fuel : ℕ) (start : Board) :
    (build R resp fbm color max_ply prune_factor fuel start).1.invoked.Nodup := by
  unfold build
  split_ifs
  · exact (buildLoop_invoked R resp fbm color max_ply prune_factor fuel _
      List.nodup_nil (fun f hf => absurd hf (List.not_mem_nil f))).1
  · exact (buildLoop_invoked R resp fbm color max_ply prune_factor fuel _
      List.nodup_nil (fun f hf => absurd hf (List.not_mem_nil f))).1

theorem fifoReplay_push {Board : Type} [DecidableEq Board] (r : List Board)
    (b : Board) (evs : List (Ev Board)) :
    fifoReplay r (Ev.push b :: evs) = fifoReplay (b :: r) evs := rfl

theorem fifoReplay_pruned {Board : Type} [DecidableEq Board] (r l : List Board)
    (evs : List (Ev Board)) :
    fifoReplay r (Ev.pruned l :: evs) = fifoReplay l evs := rfl

theorem fifoReplay_pop_last {Board : Type} [DecidableEq Board] (r : List Board)
    (b : Board) (evs : List (Ev Board)) (h : r.getLast? = some b) :
    fifoReplay r (Ev.pop b :: evs) = fifoReplay r.dropLast evs := by
  simp only [fifoReplay, h]
  simp

theorem fifoReplay_append {Board : Type} [DecidableEq Board] :
    ∀ (e1 e2 : List (Ev Board)) (r : List Board),
      fifoReplay r (e1 ++ e2) = (fifoReplay r e1).bind fun r1 => fifoReplay r1 e2 := by
  intro e1
  induction e1 with
  | nil =>
    intro e2 r
    rfl
  | cons e es ih =>
    intro e2 r
    cases e with
    | push b =>
      rw [List.cons_append, fifoReplay_push, fifoReplay_push]
      exact ih e2 (b :: r)
    | pop b =>
      rw [List.cons_append]
      simp only [fifoReplay]
      cases hl : r.getLast? with
      | none => rfl
      | some x =>
        dsimp only
        split_ifs
        · exact ih e2 _
        · rfl
    | pruned l =>
      rw [List.cons_append, fifoReplay_pruned, fifoReplay_pruned]
      exact ih e2 l

/-- The push events of the child-expansion pass replay (under the FIFO
discipline) from the queue it started with to the queue it returns. -/
theorem expandChildren_replay {Board Move : Type} [DecidableEq Board]
    (R : Rules Board Move) (fbm : Board → Move) (board : Board) :
    ∀ (ms : List Move) (bm : List (String × Move)) (q : List Board) (inv : List String),
      fifoReplay q (expandChildren R fbm board ms bm q inv).2.2.2
        = some (expandChildren R fbm board ms bm q inv).2.1 := by
  intro ms
  induction ms with
  | nil =>
    intro bm q inv
    rfl
  | cons m ms ih =>
    intro bm q inv
    cases halk : alookup (R.board_fen (R.push board m)) bm with
    | some best =>
      simp only [expandChildren, halk]
      rw [fifoReplay_push]
      exact ih bm _ inv
    | none =>
      simp only [expandChildren, halk]
      rw [fifoReplay_push]
      exact ih _ _ _

/-- The expansion loop's event trace replays, under the FIFO discipline,
from the entry queue to the final queue: every pop removes the least
recently pushed node still present (modulo the queue replacements recorded
by prune events). -/
theorem buildLoop_replay {Board Move : Type} [DecidableEq Board] (R : Rules Board Move)
    (resp : String → StatsResp Move) (fbm : Board → Move) (color : Bool)
    (max_ply prune_factor : ℕ) :
    ∀ (fuel : ℕ) (s : BState Board Move),
      fifoReplay s.q (buildLoop R resp fbm color max_ply prune_factor fuel s).2
        = some (buildLoop R resp fbm color max_ply prune_factor fuel s).1.q := by
  intro fuel
  induction fuel with
  | zero =>
    intro s
    rfl
  | succ fuel ih =>
    intro s
    simp only [buildLoop]
    cases hq : s.q.getLast? with
    | none => rfl
    | some last =>
      dsimp only
      by_cases hply : R.ply last = s.lastPly
      · rw [if_pos hply]
        dsimp only
        rw [hq]
        dsimp only
        have hE := expandChildren_replay R fbm last (get_opposing_moves R resp last 2 (1 / 2))
          s.best_moves s.q.dropLast s.invoked
        split_ifs <;>
          first
          | (try dsimp only
             simp only [List.append_assoc, List.cons_append, List.nil_append,
               List.singleton_append]
             rw [fifoReplay_pop_last _ _ _ hq, fifoReplay_append, hE, Option.some_bind]
             exact ih ⟨_, _, _, _, _⟩)
          | (try dsimp only
             simp only [List.append_assoc, List.cons_append, List.nil_append,
               List.singleton_append]
             rw [fifoReplay_pop_last _ _ _ hq]
             exact ih ⟨_, _, _, _, _⟩)
      · rw [if_neg hply]
        dsimp only
        cases hq2 : (prune R resp s.q (R.ply last * prune_factor)).1.getLast? with
        | none =>
          dsimp only
          rw [fifoReplay_pruned]
          rfl
        | some board =>
          dsimp only
          have hE := expandChildren_replay R fbm board
            (get_opposing_moves R resp board 2 (1 / 2)) s.best_moves
            (prune R resp s.q (R.ply last * prune_factor)).1.dropLast s.invoked
          split_ifs <;>
            first
            | (try dsimp only
               simp only [List.append_assoc, List.cons_append, List.nil_append,
                 List.singleton_append]
               rw [fifoReplay_pruned, fifoReplay_pop_last _ _ _ hq2, fifoReplay_append, hE,
                 Option.some_bind]
               exact ih ⟨_, _, _, _, _⟩)
            | (try dsimp only
               simp only [List.append_assoc, List.cons_append, List.nil_append,
                 List.singleton_append]
               rw [fifoReplay_pruned, fifoReplay_pop_last _ _ _ hq2]
               exact ih ⟨_, _, _, _, _⟩)

/-- C1 amended: `build`'s frontier is processed first-in-first-out, not
last-in-first-out — children are pushed with `appendleft` (the left end) and
nodes are popped with `pop()` (the right end), so between prunes the node
popped for expansion is the **least** recently pushed node in the queue
(prune events replace and reorder the whole queue, which the replay tracks
explicitly).  The whole event trace of any run replays successfully under
the FIFO discipline, ending at the final queue. -/
theorem build_fifo {Board Move : Type} [DecidableEq Board] (R : Rules Board Move)
    (resp : String → StatsResp Move) (fbm : Board → Move) (color : Bool)
    (max_ply prune_factor fuel : ℕ) (start : Board) :
    fifoReplay [] (build R resp fbm color max_ply prune_factor fuel start).2
      = some (build R resp fbm color max_ply prune_factor fuel start).1.q := by
  unfold build
  split_ifs
  · rw [fifoReplay_push]
    exact buildLoop_replay R resp fbm color max_ply prune_factor fuel ⟨_, _, _, _, _⟩
  · rw [fifoReplay_push]
    exact buildLoop_replay R resp fbm color max_ply prune_factor fuel ⟨_, _, _, _, _⟩

set_option maxHeartbeats 3200000 in
/-- The event trace of the concrete C1 build run: black build, three loop
iterations.  The start node is popped, its two children pushed (107 then
207); the ply change then triggers a prune that keeps both (207 has the
larger sample weight), after which the loop pops 107 — the node that was
pushed *first* — while 207, pushed after it, is still queued. -/
theorem c1_trace :
    (build c1_rules c1_resp (fun _ => 7) false 24 1 3 0).2
      = [Ev.push 0, Ev.pop 0, Ev.push 107, Ev.push 207, Ev.pruned [207, 107],
         Ev.pop 107, Ev.push 1070907, Ev.pop 207, Ev.push 2070907] := by
  norm_num +decide [build, buildLoop, expandChildren, get_opposing_moves, get_moves_table,
    prune, pruneAux, alookup, c1_rules, c1_resp, sortDescBy, List.insertionSort,
    List.orderedInsert, List.filter]

/-- Counterexample refuting C1 as stated: the run of `c1_trace` fails the
last-in-first-out replay — at the `pop 107` event the most recently pushed
node still in the queue is 207 (pushed after 107, kept by the prune), yet
the code pops 107, because `build` pushes with `appendleft` and pops from
the opposite end. -/
theorem build_lifo_counterexample :
    lifoReplay [] (build c1_rules c1_resp (fun _ => 7) false 24 1 3 0).2 = none := by
  rw [c1_trace]
  decide
